import Mathlib

/-!
Verification of the map codec combinator of the `@solana/codecs-data-structures`
package (`src/packages/codecs-data-structures/src/map.ts`), over a shallow
embedding of the codec combinator framework.

Byte sequences are modelled as `List Nat` (each element a byte value), encoders
as functions from values to byte sequences (or a typed error), and decoders as
functions from a byte slice and an offset to a decoded value and the new offset
(or a typed error). JavaScript `Map` values are modelled as their entry list in
iteration (insertion) order; the `Map` invariant that keys are unique is the
predicate `JsMapWF`.
-/

namespace SolanaCodecs

/-- A byte sequence: each element is one byte value. -/
abbrev Bytes := List Nat

/-- The typed error taxonomy of the codec framework (spec section 7). -/
inductive CodecError where
  | UnexpectedEndOfInput : CodecError
  | NumberOutOfRange : CodecError
  | InvalidDiscriminant : CodecError
  | LengthMismatch : CodecError
  | MisalignedRemainder : CodecError
  | InvalidEncodedText : CodecError
  deriving DecidableEq, Repr

/-- An `Encoder<TFrom>`: produces the bytes for a value (or a typed error), and
carries its size-category tag — `some n` for a fixed-size encoder whose constant
byte length is `n`, `none` for a variable-size encoder. -/
structure Encoder (α : Type) where
  write : α → Except CodecError Bytes
  fixedSize : Option Nat

/-- A `Decoder<TTo>`: reads from a byte slice at an offset, returning the decoded
value and the new offset (or a typed error), with the same size-category tag. -/
structure Decoder (α : Type) where
  read : Bytes → Nat → Except CodecError (α × Nat)
  fixedSize : Option Nat

/-- A `Codec<T>`: the pairing of an encoder and a decoder for the same type. -/
structure Codec (α : Type) where
  enc : Encoder α
  dec : Decoder α

/-- `combineCodec` from `@solana/codecs-core`: pairs an encoder and a decoder. -/
def combineCodec {α : Type} (e : Encoder α) (d : Decoder α) : Codec α := ⟨e, d⟩

/-- A `NumberCodec` specialised to the natural numbers it is used for here
(element counts): both directions plus the size-category tag. -/
structure NatCodec where
  write : Nat → Except CodecError Bytes
  read : Bytes → Nat → Except CodecError (Nat × Nat)
  fixedSize : Option Nat

/-- `ArrayLikeCodecSize<TPrefix>` from `array.ts`: the count strategy of an
array-like codec — a number codec writing/reading a leading count, a fixed
count declared at construction, or `'remainder'`. -/
inductive ArrayLikeCodecSize where
  | countCodec (p : NatCodec)
  | fixedCount (n : Nat)
  | remainder

/-- Modelled from the spec: `transformEncoder` of `@solana/codecs-core`
(spec section 4.9), absent from `src/` — maps the input type through a pure
function without altering byte layout or size category. -/
def transformEncoder {α β : Type} (e : Encoder α) (f : β → α) : Encoder β where
  write := fun b => e.write (f b)
  fixedSize := e.fixedSize

/-- Modelled from the spec: `transformDecoder` of `@solana/codecs-core`
(spec section 4.9), absent from `src/` — maps the output type through a pure
function without altering byte layout or size category. -/
def transformDecoder {α β : Type} (d : Decoder α) (f : α → β) : Decoder β where
  read := fun bytes off => (d.read bytes off).map (fun r => (f r.1, r.2))
  fixedSize := d.fixedSize

/-- Modelled from the spec: `getTupleEncoder` of `tuple.ts` (spec section 4.4),
absent from `src/`, at the pair instance used by the map codec — children are
written strictly in declared order; fixed-size exactly when both children are. -/
def getTupleEncoder {κ ν : Type} (keyE : Encoder κ) (valueE : Encoder ν) : Encoder (κ × ν) where
  write := fun p => do
    let a ← keyE.write p.1
    let b ← valueE.write p.2
    pure (a ++ b)
  fixedSize :=
    match keyE.fixedSize, valueE.fixedSize with
    | some a, some b => some (a + b)
    | _, _ => none

/-- Modelled from the spec: `getTupleDecoder` of `tuple.ts` (spec section 4.4),
absent from `src/`, at the pair instance used by the map codec — children are
read strictly in declared order, each advancing the shared offset. -/
def getTupleDecoder {κ ν : Type} (keyD : Decoder κ) (valueD : Decoder ν) : Decoder (κ × ν) where
  read := fun bytes off => do
    let (k, o1) ← keyD.read bytes off
    let (v, o2) ← valueD.read bytes o1
    pure ((k, v), o2)
  fixedSize :=
    match keyD.fixedSize, valueD.fixedSize with
    | some a, some b => some (a + b)
    | _, _ => none

/-- Writes each element in order and concatenates the produced bytes. -/
def writeAll {α : Type} (e : Encoder α) : List α → Except CodecError Bytes
  | [] => pure []
  | x :: t => do
    let b ← e.write x
    let r ← writeAll e t
    pure (b ++ r)

/-- The size-category computation of an array-like codec: a fixed count of 0 is
fixed-size 0 regardless of the element codec (as the `size: 0` overloads of
`getMapEncoder`/`getMapDecoder`/`getMapCodec` in `map.ts` declare); a positive
fixed count is fixed-size exactly when the element is; a count codec or the
remainder strategy is variable-size. -/
def arrayLikeFixedSize (itemSize : Option Nat) : ArrayLikeCodecSize → Option Nat
  | .countCodec _ => none
  | .fixedCount n => if n = 0 then some 0 else itemSize.map (fun s => n * s)
  | .remainder => none

/-- Modelled from the spec: `getArrayEncoder` of `array.ts` (spec section 4.4),
absent from `src/` — a count codec writes the element count then each element; a
fixed count requires exactly that arity (error otherwise) and writes no count;
the remainder strategy concatenates the elements with no count marker. -/
def getArrayEncoder {α : Type} (item : Encoder α) (cfg : ArrayLikeCodecSize) : Encoder (List α) where
  write := fun xs =>
    match cfg with
    | .countCodec p => do
      let pre ← p.write xs.length
      let body ← writeAll item xs
      pure (pre ++ body)
    | .fixedCount n =>
      if xs.length = n then writeAll item xs else .error .LengthMismatch
    | .remainder => writeAll item xs
  fixedSize := arrayLikeFixedSize item.fixedSize cfg

/-- Reads `n` elements in sequence, advancing the offset. -/
def readElems {α : Type} (d : Decoder α) : Nat → Bytes → Nat → Except CodecError (List α × Nat)
  | 0, _, off => pure ([], off)
  | n + 1, bytes, off => do
    let (x, o1) ← d.read bytes off
    let (t, o2) ← readElems d n bytes o1
    pure (x :: t, o2)

/-- Modelled from the spec: the count-resolution step of `getArrayDecoder` of
`array.ts` (spec sections 4.4 and 7), absent from `src/` — a count codec reads
the count; a fixed count is used as declared; the remainder strategy requires a
fixed-size element and divides the remaining byte count by the element size,
failing with `MisalignedRemainder` when it is not an exact multiple. -/
def resolveArrayLikeCount (itemSize : Option Nat) (cfg : ArrayLikeCodecSize)
    (bytes : Bytes) (off : Nat) : Except CodecError (Nat × Nat) :=
  match cfg with
  | .countCodec p => p.read bytes off
  | .fixedCount n => pure (n, off)
  | .remainder =>
    match itemSize with
    | none => .error .LengthMismatch
    | some s =>
      if s = 0 then pure (0, off)
      else if (bytes.length - off) % s = 0 then pure ((bytes.length - off) / s, off)
      else .error .MisalignedRemainder

/-- Modelled from the spec: `getArrayDecoder` of `array.ts` (spec section 4.4),
absent from `src/` — resolves the element count per the count strategy, then
reads that many elements in order. -/
def getArrayDecoder {α : Type} (item : Decoder α) (cfg : ArrayLikeCodecSize) : Decoder (List α) where
  read := fun bytes off => do
    let (count, o1) ← resolveArrayLikeCount item.fixedSize cfg bytes off
    readElems item count bytes o1
  fixedSize := arrayLikeFixedSize item.fixedSize cfg

/-- A JavaScript `Map` value, modelled as its entry list in iteration
(insertion) order. The `Map` invariant that keys are unique is `JsMapWF`. -/
abbrev JsMap (κ ν : Type) := List (κ × ν)

/-- The `Map` invariant: keys are pairwise distinct. -/
def JsMapWF {κ ν : Type} (m : JsMap κ ν) : Prop := (m.map Prod.fst).Nodup

/-- The `[...map.entries()]` transform of `getMapEncoder` in `map.ts`: the entry
list of the map in iteration order (the identity in this representation). -/
def jsMapEntries {κ ν : Type} : JsMap κ ν → List (κ × ν) := fun m => m

/-- JavaScript `Map.prototype.set` on an entry list: if the key is present, the
value at its (first) position is replaced in place; otherwise the entry is
appended at the end. -/
def listSet {κ ν : Type} [DecidableEq κ] : List (κ × ν) → κ → ν → List (κ × ν)
  | [], k, v => [(k, v)]
  | (a, b) :: t, k, v => if a = k then (a, v) :: t else (a, b) :: listSet t k v

/-- The accumulator pass of `new Map(entries)`: sets each entry in order. -/
def mapFromListAux {κ ν : Type} [DecidableEq κ] (acc : List (κ × ν)) : List (κ × ν) → List (κ × ν)
  | [] => acc
  | (k, v) :: t => mapFromListAux (listSet acc k v) t

/-- The `new Map(entries)` transform of `getMapDecoder` in `map.ts`: builds the
map by setting each decoded entry in order, so a duplicate key keeps its first
position and takes the value of its last occurrence. -/
def jsMapFromEntries {κ ν : Type} [DecidableEq κ] (es : List (κ × ν)) : JsMap κ ν :=
  mapFromListAux [] es

/-- `getMapEncoder` of `map.ts` (lines 87–96): the array-of-(key, value)-tuples
encoder composed, via `transformEncoder`, with the map-to-entry-list transform. -/
def getMapEncoder {κ ν : Type} (keyE : Encoder κ) (valueE : Encoder ν)
    (cfg : ArrayLikeCodecSize) : Encoder (JsMap κ ν) :=
  transformEncoder (getArrayEncoder (getTupleEncoder keyE valueE) cfg) jsMapEntries

/-- `getMapDecoder` of `map.ts` (lines 142–151): the array-of-(key, value)-tuples
decoder composed, via `transformDecoder`, with the entry-list-to-map transform. -/
def getMapDecoder {κ ν : Type} [DecidableEq κ] (keyD : Decoder κ) (valueD : Decoder ν)
    (cfg : ArrayLikeCodecSize) : Decoder (JsMap κ ν) :=
  transformDecoder (getArrayDecoder (getTupleDecoder keyD valueD) cfg) jsMapFromEntries

/-- `getMapCodec` of `map.ts` (lines 274–285): `combineCodec` of the map encoder
and the map decoder built from the key and value codecs. -/
def getMapCodec {κ ν : Type} [DecidableEq κ] (key : Codec κ) (value : Codec ν)
    (cfg : ArrayLikeCodecSize) : Codec (JsMap κ ν) :=
  combineCodec (getMapEncoder key.enc value.enc cfg) (getMapDecoder key.dec value.dec cfg)

/-- Reads one byte at an offset, failing when the slice is exhausted. -/
def readByte (bytes : Bytes) (off : Nat) : Except CodecError Nat :=
  match bytes[off]? with
  | some b => pure b
  | none => .error .UnexpectedEndOfInput

/-- The 8-bit unsigned write: one byte, `NumberOutOfRange` when the value does
not fit (spec section 4.2). -/
def u8Write (n : Nat) : Except CodecError Bytes :=
  if n < 256 then pure [n] else .error .NumberOutOfRange

/-- The 8-bit unsigned read: one byte, advancing the offset by one. -/
def u8Read (bytes : Bytes) (off : Nat) : Except CodecError (Nat × Nat) := do
  let b ← readByte bytes off
  pure (b, off + 1)

/-- Modelled from the spec: `getU8Encoder` of `@solana/codecs-numbers`
(spec section 4.2), absent from `src/`. -/
def getU8Encoder : Encoder Nat := ⟨u8Write, some 1⟩

/-- Modelled from the spec: `getU8Decoder` of `@solana/codecs-numbers`
(spec section 4.2), absent from `src/`. -/
def getU8Decoder : Decoder Nat := ⟨u8Read, some 1⟩

/-- The 32-bit unsigned little-endian write: four bytes, least significant
first, `NumberOutOfRange` when the value does not fit (spec section 4.2). -/
def u32Write (n : Nat) : Except CodecError Bytes :=
  if n < 4294967296 then pure [n % 256, n / 256 % 256, n / 65536 % 256, n / 16777216 % 256]
  else .error .NumberOutOfRange

/-- The 32-bit unsigned little-endian read: four bytes, least significant
first, advancing the offset by four. -/
def u32Read (bytes : Bytes) (off : Nat) : Except CodecError (Nat × Nat) := do
  let b0 ← readByte bytes off
  let b1 ← readByte bytes (off + 1)
  let b2 ← readByte bytes (off + 2)
  let b3 ← readByte bytes (off + 3)
  pure (b0 + 256 * b1 + 65536 * b2 + 16777216 * b3, off + 4)

/-- Modelled from the spec: `getU32Codec` of `@solana/codecs-numbers`
(spec section 4.2), absent from `src/` — the default little-endian unsigned
32-bit number codec used as the default count prefix. -/
def getU32NatCodec : NatCodec := ⟨u32Write, u32Read, some 4⟩

/-- The default map size configuration: an unsigned 32-bit count prefix
(`map.ts` line 35: `@defaultValue u32 prefix`). -/
def defaultMapSize : ArrayLikeCodecSize := .countCodec getU32NatCodec

/-- Strips trailing zero bytes, as the fixed-length text decode does with its
zero padding (spec section 4.3). -/
def dropTrailingZeros (l : Bytes) : Bytes :=
  (l.reverse.dropWhile (fun b => b == 0)).reverse

/-- The fixed-length write: pads a shorter value with zero bytes up to the fixed
length, and rejects a longer value (spec section 4.3). -/
def fixBytesWrite (n : Nat) (s : Bytes) : Except CodecError Bytes :=
  if s.length ≤ n then pure (s ++ List.replicate (n - s.length) 0) else .error .LengthMismatch

/-- The fixed-length read: consumes exactly `n` bytes and strips the trailing
zero padding (spec section 4.3). -/
def fixBytesRead (n : Nat) (bytes : Bytes) (off : Nat) : Except CodecError (Bytes × Nat) :=
  if off + n ≤ bytes.length then pure (dropTrailingZeros ((bytes.drop off).take n), off + n)
  else .error .UnexpectedEndOfInput

/-- Modelled from the spec: `fixCodecSize(getUtf8Encoder(), n)` (spec
section 4.3), absent from `src/` — text is represented by its utf8 byte
sequence; a shorter value is zero-padded to the fixed length, a longer value is
an error. -/
def getFixedBytesEncoder (n : Nat) : Encoder Bytes := ⟨fixBytesWrite n, some n⟩

/-- Modelled from the spec: `fixCodecSize(getUtf8Decoder(), n)` (spec
section 4.3), absent from `src/` — decoding consumes exactly `n` bytes and
strips the trailing zero padding. -/
def getFixedBytesDecoder (n : Nat) : Decoder Bytes := ⟨fixBytesRead n, some n⟩

/-- The unsigned 32-bit size-prefixed byte-sequence write (spec section 4.3):
prefix recording the exact payload length, then the payload. -/
def u32PrefixedBytesWrite (s : Bytes) : Except CodecError Bytes := do
  let p ← u32Write s.length
  pure (p ++ s)

/-- Modelled from the spec: a size-prefixed byte-sequence encoder (spec
section 4.3), absent from `src/` — a variable-size encoder, used to exhibit a
variable-size key codec. -/
def getU32PrefixedBytesEncoder : Encoder Bytes := ⟨u32PrefixedBytesWrite, none⟩

/-- First-match association-list lookup, the value a map associates to a key. -/
def listLookup {κ ν : Type} [DecidableEq κ] : List (κ × ν) → κ → Option ν
  | [], _ => none
  | (a, b) :: t, k => if a = k then some b else listLookup t k

/-- The round-trip contract between an encoder and a decoder for the same type:
whatever the encoder writes, the decoder reads back at any offset inside any
enclosing byte sequence, consuming exactly the written bytes. -/
def EncDecInverse {α : Type} (e : Encoder α) (d : Decoder α) : Prop :=
  ∀ x b, e.write x = .ok b →
    ∀ pre post : Bytes, d.read (pre ++ b ++ post) pre.length = .ok (x, pre.length + b.length)

/-- The round-trip contract for a count codec. -/
def NatCodecInverse (p : NatCodec) : Prop :=
  ∀ x b, p.write x = .ok b →
    ∀ pre post : Bytes, p.read (pre ++ b ++ post) pre.length = .ok (x, pre.length + b.length)

/-- The fixed-size contract of an encoder: every successful write of a
fixed-size encoder produces exactly its declared constant byte length. -/
def EncWritesFixed {α : Type} (e : Encoder α) : Prop :=
  ∀ n, e.fixedSize = some n → ∀ x b, e.write x = .ok b → b.length = n

/-- The fixed-size contract of a decoder: whenever `s` bytes remain, the read
succeeds and consumes exactly `s` bytes. -/
def DecReadsTotal {α : Type} (d : Decoder α) (s : Nat) : Prop :=
  ∀ bytes off, off + s ≤ bytes.length → ∃ x, d.read bytes off = .ok (x, off + s)

/-- The per-configuration hypotheses under which the map codec round-trips: a
count codec must round-trip counts; the remainder strategy additionally needs
fixed-size key and value codecs of consistent, jointly positive size. -/
def SizeConfigOk {κ ν : Type} (keyE : Encoder κ) (keyD : Decoder κ)
    (valueE : Encoder ν) (valueD : Decoder ν) : ArrayLikeCodecSize → Prop
  | .countCodec p => NatCodecInverse p
  | .fixedCount _ => True
  | .remainder =>
    ∃ sk sv, keyE.fixedSize = some sk ∧ keyD.fixedSize = some sk ∧
      valueE.fixedSize = some sv ∧ valueD.fixedSize = some sv ∧
      0 < sk + sv ∧ EncWritesFixed keyE ∧ EncWritesFixed valueE

/-- Follows the spec's words (section 4.5): the key and value of each entry are
written directly one after the other, entry after entry, with no intervening
framing. Used to compare the composed map encoder against the spec's
description of its byte stream. -/
def specMapWritePairs {κ ν : Type} (keyE : Encoder κ) (valueE : Encoder ν) :
    List (κ × ν) → Except CodecError Bytes
  | [] => pure []
  | (k, v) :: t => do
    let a ← keyE.write k
    let b ← valueE.write v
    let r ← specMapWritePairs keyE valueE t
    pure (a ++ (b ++ r))

/-- Follows the spec's words (sections 4.4 and 4.5): the count strategy frames a
direct pair-after-pair serialization of the map's entries in iteration order. -/
def specMapWrite {κ ν : Type} (keyE : Encoder κ) (valueE : Encoder ν)
    (cfg : ArrayLikeCodecSize) (m : JsMap κ ν) : Except CodecError Bytes :=
  match cfg with
  | .countCodec p => do
    let pre ← p.write (jsMapEntries m).length
    let body ← specMapWritePairs keyE valueE (jsMapEntries m)
    pure (pre ++ body)
  | .fixedCount n =>
    if (jsMapEntries m).length = n then specMapWritePairs keyE valueE (jsMapEntries m)
    else .error .LengthMismatch
  | .remainder => specMapWritePairs keyE valueE (jsMapEntries m)

/-- Follows the spec's words (section 4.5): reads `n` (key, value) pairs
directly one after the other, key then value, each advancing the offset. -/
def specReadPairs {κ ν : Type} (keyD : Decoder κ) (valueD : Decoder ν) :
    Nat → Bytes → Nat → Except CodecError (List (κ × ν) × Nat)
  | 0, _, off => pure ([], off)
  | n + 1, bytes, off => do
    let (k, o1) ← keyD.read bytes off
    let (v, o2) ← valueD.read bytes o1
    let (t, o3) ← specReadPairs keyD valueD n bytes o2
    pure ((k, v) :: t, o3)

/-- The concrete map of the spec's concrete scenario: `{"alice": 42, "bob": 5}`
with keys as utf8 byte sequences. -/
def aliceBobMap : JsMap Bytes Nat := [([97, 108, 105, 99, 101], 42), ([98, 111, 98], 5)]

/-- The 16 bytes `02000000 616c696365 2a 626f620000 05` of the spec's concrete
scenario. -/
def aliceBobBytes : Bytes :=
  [2, 0, 0, 0, 97, 108, 105, 99, 101, 42, 98, 111, 98, 0, 0, 5]

/-! ### General helper lemmas -/

theorem except_bind_ok {ε α β : Type} {x : Except ε α} {f : α → Except ε β} {b : β} :
    x >>= f = .ok b ↔ ∃ a, x = .ok a ∧ f a = .ok b := by
  cases x <;> simp [Bind.bind, Except.bind]

theorem except_map_ok {ε α β : Type} {x : Except ε α} {f : α → β} {b : β} :
    x.map f = .ok b ↔ ∃ a, x = .ok a ∧ f a = b := by
  cases x <;> simp [Except.map]

theorem getElem_append_middle (pre b post : Bytes) (i : Nat) (h : i < b.length) :
    (pre ++ b ++ post)[pre.length + i]? = b[i]? := by
  rw [List.append_assoc, List.getElem?_append_right (Nat.le_add_right pre.length i)]
  simp only [Nat.add_sub_cancel_left]
  exact List.getElem?_append_left h

/-! ### Primitive codec contract lemmas -/

theorem u8_writes_fixed : EncWritesFixed getU8Encoder := by
  intro n hn x b hw
  simp only [getU8Encoder] at hn
  cases hn
  simp only [getU8Encoder, u8Write] at hw
  split at hw
  · cases hw
    rfl
  · cases hw

theorem u8_inverse : EncDecInverse getU8Encoder getU8Decoder := by
  intro x b hw pre post
  simp only [getU8Encoder, u8Write] at hw
  split at hw
  case isTrue hx =>
    cases hw
    have hb : (pre ++ [x] ++ post)[pre.length]? = some x := by
      have := getElem_append_middle pre [x] post 0 (by simp)
      simpa using this
    simp only [getU8Decoder, u8Read, readByte, hb]
    rfl
  case isFalse hx => cases hw

theorem u8_reads_total : DecReadsTotal getU8Decoder 1 := by
  intro bytes off h
  have hlt : off < bytes.length := by omega
  refine ⟨bytes.get ⟨off, hlt⟩, ?_⟩
  simp [getU8Decoder, u8Read, readByte, List.getElem?_eq_getElem hlt,
    Bind.bind, Except.bind, pure, Except.pure]

theorem u32_inverse : NatCodecInverse getU32NatCodec := by
  intro x b hw pre post
  simp only [getU32NatCodec, u32Write] at hw
  split at hw
  case isTrue hx =>
    cases hw
    have h0 : (pre ++ [x % 256, x / 256 % 256, x / 65536 % 256, x / 16777216 % 256] ++ post)[pre.length]? = some (x % 256) := by
      have := getElem_append_middle pre [x % 256, x / 256 % 256, x / 65536 % 256, x / 16777216 % 256] post 0 (by simp)
      simpa using this
    have h1 : (pre ++ [x % 256, x / 256 % 256, x / 65536 % 256, x / 16777216 % 256] ++ post)[pre.length + 1]? = some (x / 256 % 256) := by
      have := getElem_append_middle pre [x % 256, x / 256 % 256, x / 65536 % 256, x / 16777216 % 256] post 1 (by simp)
      simpa using this
    have h2 : (pre ++ [x % 256, x / 256 % 256, x / 65536 % 256, x / 16777216 % 256] ++ post)[pre.length + 2]? = some (x / 65536 % 256) := by
      have := getElem_append_middle pre [x % 256, x / 256 % 256, x / 65536 % 256, x / 16777216 % 256] post 2 (by simp)
      simpa using this
    have h3 : (pre ++ [x % 256, x / 256 % 256, x / 65536 % 256, x / 16777216 % 256] ++ post)[pre.length + 3]? = some (x / 16777216 % 256) := by
      have := getElem_append_middle pre [x % 256, x / 256 % 256, x / 65536 % 256, x / 16777216 % 256] post 3 (by simp)
      simpa using this
    simp only [getU32NatCodec, u32Read, readByte, h0, h1, h2, h3]
    simp only [pure, Except.pure, bind, Except.bind, List.length_cons, List.length_nil]
    refine congrArg Except.ok (Prod.ext ?_ ?_)
    · simp
      omega
    · simp
  case isFalse hx => cases hw

/-! ### Structural combinator lemmas -/

theorem tuple_inverse {κ ν : Type} {keyE : Encoder κ} {keyD : Decoder κ}
    {valueE : Encoder ν} {valueD : Decoder ν}
    (hk : EncDecInverse keyE keyD) (hv : EncDecInverse valueE valueD) :
    EncDecInverse (getTupleEncoder keyE valueE) (getTupleDecoder keyD valueD) := by
  intro p b hw pre post
  simp only [getTupleEncoder] at hw
  rw [except_bind_ok] at hw
  obtain ⟨a, ha, hw⟩ := hw
  rw [except_bind_ok] at hw
  obtain ⟨c, hc, hw⟩ := hw
  simp only [pure, Except.pure, Except.ok.injEq] at hw
  subst hw
  have hka := hk p.1 a ha pre (c ++ post)
  have hvc := hv p.2 c hc (pre ++ a) post
  simp only [getTupleDecoder]
  rw [except_bind_ok]
  refine ⟨(p.1, pre.length + a.length), ?_, ?_⟩
  · rw [show pre ++ (a ++ c) ++ post = pre ++ a ++ (c ++ post) by simp]
    exact hka
  · rw [except_bind_ok]
    refine ⟨(p.2, (pre ++ a).length + c.length), ?_, ?_⟩
    · rw [show pre ++ (a ++ c) ++ post = (pre ++ a) ++ c ++ post by simp]
      simpa using hvc
    · simp only [pure, Except.pure, Except.ok.injEq, Prod.mk.injEq, List.length_append]
      exact ⟨trivial, by omega⟩

theorem tuple_writes_fixed {κ ν : Type} {keyE : Encoder κ} {valueE : Encoder ν}
    (hk : EncWritesFixed keyE) (hv : EncWritesFixed valueE) :
    EncWritesFixed (getTupleEncoder keyE valueE) := by
  intro n hn p b hw
  simp only [getTupleEncoder] at hn hw
  rw [except_bind_ok] at hw
  obtain ⟨a, ha, hw⟩ := hw
  rw [except_bind_ok] at hw
  obtain ⟨c, hc, hw⟩ := hw
  simp only [pure, Except.pure, Except.ok.injEq] at hw
  subst hw
  cases hke : keyE.fixedSize with
  | none => rw [hke] at hn; cases hn
  | some sk =>
    cases hve : valueE.fixedSize with
    | none => rw [hke, hve] at hn; cases hn
    | some sv =>
      rw [hke, hve] at hn
      cases hn
      have := hk sk hke p.1 a ha
      have := hv sv hve p.2 c hc
      simp only [List.length_append]
      omega

theorem tuple_fixedSize_eq {κ ν : Type} (keyE : Encoder κ) (valueE : Encoder ν)
    {sk sv : Nat} (hk : keyE.fixedSize = some sk) (hv : valueE.fixedSize = some sv) :
    (getTupleEncoder keyE valueE).fixedSize = some (sk + sv) := by
  simp only [getTupleEncoder, hk, hv]

theorem tupleDec_fixedSize_eq {κ ν : Type} (keyD : Decoder κ) (valueD : Decoder ν)
    {sk sv : Nat} (hk : keyD.fixedSize = some sk) (hv : valueD.fixedSize = some sv) :
    (getTupleDecoder keyD valueD).fixedSize = some (sk + sv) := by
  simp only [getTupleDecoder, hk, hv]

theorem writeAll_length {α : Type} {e : Encoder α} {s : Nat}
    (hs : e.fixedSize = some s) (hf : EncWritesFixed e) :
    ∀ xs b, writeAll e xs = .ok b → b.length = xs.length * s := by
  intro xs
  induction xs with
  | nil =>
    intro b hw
    simp only [writeAll, pure, Except.pure, Except.ok.injEq] at hw
    subst hw
    simp
  | cons x t ih =>
    intro b hw
    simp only [writeAll] at hw
    rw [except_bind_ok] at hw
    obtain ⟨a, ha, hw⟩ := hw
    rw [except_bind_ok] at hw
    obtain ⟨r, hr, hw⟩ := hw
    simp only [pure, Except.pure, Except.ok.injEq] at hw
    subst hw
    have h1 := hf s hs x a ha
    have h2 := ih r hr
    simp only [List.length_append, List.length_cons]
    rw [h1, h2, Nat.succ_mul]
    omega

theorem writeAll_readElems {α : Type} {e : Encoder α} {d : Decoder α}
    (hinv : EncDecInverse e d) :
    ∀ xs b, writeAll e xs = .ok b →
      ∀ pre post : Bytes,
        readElems d xs.length (pre ++ b ++ post) pre.length = .ok (xs, pre.length + b.length) := by
  intro xs
  induction xs with
  | nil =>
    intro b hw pre post
    simp only [writeAll, pure, Except.pure, Except.ok.injEq] at hw
    subst hw
    simp [readElems, pure, Except.pure]
  | cons x t ih =>
    intro b hw pre post
    simp only [writeAll] at hw
    rw [except_bind_ok] at hw
    obtain ⟨a, ha, hw⟩ := hw
    rw [except_bind_ok] at hw
    obtain ⟨r, hr, hw⟩ := hw
    simp only [pure, Except.pure, Except.ok.injEq] at hw
    subst hw
    simp only [List.length_cons, readElems]
    rw [except_bind_ok]
    refine ⟨(x, pre.length + a.length), ?_, ?_⟩
    · rw [show pre ++ (a ++ r) ++ post = pre ++ a ++ (r ++ post) by simp]
      exact hinv x a ha pre (r ++ post)
    · rw [except_bind_ok]
      refine ⟨(t, (pre ++ a).length + r.length), ?_, ?_⟩
      · rw [show pre ++ (a ++ r) ++ post = (pre ++ a) ++ r ++ post by simp]
        simpa using ih r hr (pre ++ a) post
      · simp only [pure, Except.pure, Except.ok.injEq, Prod.mk.injEq, List.length_append]
        exact ⟨trivial, by omega⟩

/-! ### JavaScript `Map` construction lemmas -/

theorem listSet_not_mem {κ ν : Type} [DecidableEq κ] (l : List (κ × ν)) (k : κ) (v : ν)
    (h : k ∉ l.map Prod.fst) : listSet l k v = l ++ [(k, v)] := by
  induction l with
  | nil => rfl
  | cons p t ih =>
    obtain ⟨a, b⟩ := p
    simp only [List.map_cons, List.mem_cons, not_or] at h
    simp only [listSet]
    rw [if_neg (fun hak => h.1 hak.symm)]
    simp only [List.cons_append, List.cons.injEq, true_and]
    exact ih h.2

theorem mapFromListAux_append {κ ν : Type} [DecidableEq κ] (es : List (κ × ν)) :
    ∀ acc : List (κ × ν), (∀ p ∈ es, p.1 ∉ acc.map Prod.fst) →
      (es.map Prod.fst).Nodup → mapFromListAux acc es = acc ++ es := by
  induction es with
  | nil =>
    intro acc _ _
    simp [mapFromListAux]
  | cons p t ih =>
    intro acc hdisj hes
    obtain ⟨k, v⟩ := p
    simp only [mapFromListAux]
    rw [listSet_not_mem acc k v (hdisj (k, v) (List.mem_cons_self _ _))]
    simp only [List.map_cons, List.nodup_cons] at hes
    have hdisj' : ∀ q ∈ t, q.1 ∉ (acc ++ [(k, v)]).map Prod.fst := by
      intro q hq
      simp only [List.map_append, List.map_cons, List.map_nil, List.mem_append,
        List.mem_singleton, not_or]
      refine ⟨hdisj q (List.mem_cons_of_mem _ hq), fun hqk => ?_⟩
      exact hes.1 (hqk ▸ List.mem_map_of_mem Prod.fst hq)
    rw [ih (acc ++ [(k, v)]) hdisj' hes.2]
    simp

/-- Constructing a JavaScript `Map` from an entry list with pairwise-distinct
keys reproduces exactly that entry list. -/
theorem jsMapFromEntries_of_nodup {κ ν : Type} [DecidableEq κ] (es : List (κ × ν))
    (h : (es.map Prod.fst).Nodup) : jsMapFromEntries es = es := by
  simpa using mapFromListAux_append es [] (by simp) h

/-! ### Lookup lemmas (duplicate-key policy) -/

theorem listLookup_append {κ ν : Type} [DecidableEq κ] (l1 l2 : List (κ × ν)) (k : κ) :
    listLookup (l1 ++ l2) k = (listLookup l1 k).or (listLookup l2 k) := by
  induction l1 with
  | nil => simp [listLookup]
  | cons p t ih =>
    obtain ⟨a, b⟩ := p
    simp only [List.cons_append, listLookup]
    by_cases hak : a = k
    · simp [hak]
    · simp [hak, ih]

theorem listLookup_listSet {κ ν : Type} [DecidableEq κ] (l : List (κ × ν)) (k : κ) (v : ν)
    (k' : κ) : listLookup (listSet l k v) k' = if k = k' then some v else listLookup l k' := by
  induction l with
  | nil => simp [listSet, listLookup]
  | cons p t ih =>
    obtain ⟨a, b⟩ := p
    simp only [listSet]
    by_cases hak : a = k
    · subst hak
      by_cases hk' : a = k'
      · subst hk'
        simp [listLookup]
      · simp [listLookup, hk']
    · by_cases hk' : k = k'
      · subst hk'
        rw [if_neg hak]
        simp only [listLookup, ih]
        simp
        exact fun h => absurd h hak
      · rw [if_neg hak, if_neg hk']
        simp only [listLookup, ih]
        rw [if_neg hk']

theorem listLookup_mapFromListAux {κ ν : Type} [DecidableEq κ] (es : List (κ × ν)) :
    ∀ (acc : List (κ × ν)) (k : κ),
      listLookup (mapFromListAux acc es) k =
        (listLookup es.reverse k).or (listLookup acc k) := by
  induction es with
  | nil =>
    intro acc k
    simp [mapFromListAux, listLookup]
  | cons p t ih =>
    intro acc k
    obtain ⟨a, b⟩ := p
    simp only [mapFromListAux, List.reverse_cons]
    rw [ih (listSet acc a b) k, listLookup_append, listLookup_listSet, Option.or_assoc]
    congr 1
    by_cases hak : a = k
    · simp [listLookup, hak]
    · simp [listLookup, hak]

/-- The value a decoded map associates to a key is the value of the key's last
occurrence in the decoded entry sequence. -/
theorem listLookup_jsMapFromEntries {κ ν : Type} [DecidableEq κ] (es : List (κ × ν)) (k : κ) :
    listLookup (jsMapFromEntries es) k = listLookup es.reverse k := by
  have := listLookup_mapFromListAux es [] k
  simpa [listLookup] using this

/-! ### Claim theorems -/

/-- C1: For every map value `x` accepted by the map codec's encoder — any
finite association with pairwise-distinct keys whose keys and values are
accepted by key and value codecs satisfying their round-trip contracts —
decoding the bytes produced by encoding `x` yields a map equal to `x`, for
every count-strategy configuration of the map codec (a count-codec prefix, a
fixed count, or the remainder strategy under its fixed-size legality
conditions). -/
theorem map_codec_round_trip {κ ν : Type} [DecidableEq κ]
    (key : Codec κ) (value : Codec ν) (cfg : ArrayLikeCodecSize)
    (hk : EncDecInverse key.enc key.dec) (hv : EncDecInverse value.enc value.dec)
    (hcfg : SizeConfigOk key.enc key.dec value.enc value.dec cfg)
    (m : JsMap κ ν) (hm : JsMapWF m) (b : Bytes)
    (henc : (getMapCodec key value cfg).enc.write m = .ok b) :
    (getMapCodec key value cfg).dec.read b 0 = .ok (m, b.length) := by
  have htup := tuple_inverse hk hv
  cases cfg with
  | countCodec p =>
    simp only [getMapCodec, combineCodec, getMapEncoder, transformEncoder, getArrayEncoder,
      jsMapEntries] at henc
    rw [except_bind_ok] at henc
    obtain ⟨pb, hpb, henc⟩ := henc
    rw [except_bind_ok] at henc
    obtain ⟨body, hbody, henc⟩ := henc
    simp only [pure, Except.pure, Except.ok.injEq] at henc
    subst henc
    have hread : p.read (pb ++ body) 0 = .ok (m.length, pb.length) := by
      have := hcfg m.length pb hpb [] body
      simpa using this
    have helems := writeAll_readElems htup m body hbody pb []
    simp only [List.append_nil] at helems
    have harr : (getArrayDecoder (getTupleDecoder key.dec value.dec)
        (.countCodec p)).read (pb ++ body) 0 = .ok (m, pb.length + body.length) := by
      simp only [getArrayDecoder, resolveArrayLikeCount]
      rw [except_bind_ok]
      exact ⟨(m.length, pb.length), hread, helems⟩
    simp only [getMapCodec, combineCodec, getMapDecoder, transformDecoder]
    rw [harr]
    simp [Except.map, jsMapFromEntries_of_nodup m hm]
  | fixedCount n =>
    simp only [getMapCodec, combineCodec, getMapEncoder, transformEncoder, getArrayEncoder,
      jsMapEntries] at henc
    split at henc
    case isTrue hlen =>
      have helems := writeAll_readElems htup m b henc [] []
      simp only [List.nil_append, List.append_nil, List.length_nil, Nat.zero_add] at helems
      have harr : (getArrayDecoder (getTupleDecoder key.dec value.dec)
          (.fixedCount n)).read b 0 = .ok (m, b.length) := by
        simp only [getArrayDecoder, resolveArrayLikeCount]
        rw [except_bind_ok]
        exact ⟨(n, 0), rfl, by rw [← hlen]; exact helems⟩
      simp only [getMapCodec, combineCodec, getMapDecoder, transformDecoder]
      rw [harr]
      simp [Except.map, jsMapFromEntries_of_nodup m hm]
    case isFalse hlen => cases henc
  | remainder =>
    obtain ⟨sk, sv, hke, hkd, hve, hvd, hpos, hkf, hvf⟩ := hcfg
    simp only [getMapCodec, combineCodec, getMapEncoder, transformEncoder, getArrayEncoder,
      jsMapEntries] at henc
    have htupfe := tuple_fixedSize_eq key.enc value.enc hke hve
    have htupfd := tupleDec_fixedSize_eq key.dec value.dec hkd hvd
    have hblen := writeAll_length htupfe (tuple_writes_fixed hkf hvf) m b henc
    have helems := writeAll_readElems htup m b henc [] []
    simp only [List.nil_append, List.append_nil, List.length_nil, Nat.zero_add] at helems
    have harr : (getArrayDecoder (getTupleDecoder key.dec value.dec)
        .remainder).read b 0 = .ok (m, b.length) := by
      simp only [getArrayDecoder, resolveArrayLikeCount, htupfd, Nat.sub_zero]
      rw [if_neg (by omega), if_pos (by rw [hblen]; exact Nat.mul_mod_left m.length (sk + sv))]
      rw [except_bind_ok]
      refine ⟨(m.length, 0), ?_, helems⟩
      rw [hblen, Nat.mul_div_cancel _ hpos]
      rfl
    simp only [getMapCodec, combineCodec, getMapDecoder, transformDecoder]
    rw [harr]
    simp [Except.map, jsMapFromEntries_of_nodup m hm]

/-- Witness for C1: the round trip at a concrete map codec (u8 keys, u8
values, default u32 count prefix) and the concrete map {1: 2, 3: 4}. -/
theorem map_codec_round_trip_witness :
    (getMapCodec (combineCodec getU8Encoder getU8Decoder)
        (combineCodec getU8Encoder getU8Decoder) defaultMapSize).dec.read
        [2, 0, 0, 0, 1, 2, 3, 4] 0 = .ok ([(1, 2), (3, 4)], 8) :=
  map_codec_round_trip (combineCodec getU8Encoder getU8Decoder)
    (combineCodec getU8Encoder getU8Decoder) defaultMapSize
    u8_inverse u8_inverse u32_inverse [(1, 2), (3, 4)]
    (by unfold JsMapWF; decide) [2, 0, 0, 0, 1, 2, 3, 4] rfl

/-- C2: Encoding the map {"alice": 42, "bob": 5} with a 5-byte fixed-length
key codec, an 8-bit unsigned value codec, and the default unsigned 32-bit
count prefix produces exactly the 16 bytes
`02000000 616c696365 2a 626f620000 05`, and decoding those exact bytes with
the same codec reproduces the original map. -/
theorem map_concrete_scenario :
    (getMapEncoder (getFixedBytesEncoder 5) getU8Encoder defaultMapSize).write aliceBobMap
        = .ok aliceBobBytes ∧
    (getMapDecoder (getFixedBytesDecoder 5) getU8Decoder defaultMapSize).read aliceBobBytes 0
        = .ok (aliceBobMap, 16) :=
  ⟨rfl, rfl⟩

/-- C3: For every map decoder and every byte sequence from which the
underlying pair-array decoder reads an entry sequence, the map decoder
succeeds (never errors on duplicates) with the last-write-wins map built from
those entries: every key maps to the value of its last occurrence (the first
occurrence in the reversed sequence), and in particular the pair sequence
[(k, v1), (k, v2)] yields the single entry (k, v2), silently dropping the
earlier duplicate. -/
theorem map_decode_last_wins {κ ν : Type} [DecidableEq κ]
    (keyD : Decoder κ) (valueD : Decoder ν) (cfg : ArrayLikeCodecSize)
    (bytes : Bytes) (off fin : Nat) (es : List (κ × ν))
    (h : (getArrayDecoder (getTupleDecoder keyD valueD) cfg).read bytes off = .ok (es, fin)) :
    (getMapDecoder keyD valueD cfg).read bytes off = .ok (jsMapFromEntries es, fin) ∧
    (∀ k, listLookup (jsMapFromEntries es) k = listLookup es.reverse k) ∧
    (∀ (k : κ) (v1 v2 : ν), jsMapFromEntries [(k, v1), (k, v2)] = [(k, v2)]) := by
  refine ⟨?_, fun k => listLookup_jsMapFromEntries es k, fun k v1 v2 => ?_⟩
  · simp only [getMapDecoder, transformDecoder]
    rw [h]
    rfl
  · simp [jsMapFromEntries, mapFromListAux, listSet]

/-- Witness for C3: decoding the byte sequence with the duplicated key 7
(count prefix 2, pairs (7, 1) then (7, 2)) yields the map {7: 2}. -/
theorem map_decode_last_wins_witness :
    (getMapDecoder getU8Decoder getU8Decoder defaultMapSize).read [2, 0, 0, 0, 7, 1, 7, 2] 0
      = .ok ([(7, 2)], 8) :=
  (map_decode_last_wins getU8Decoder getU8Decoder defaultMapSize
    [2, 0, 0, 0, 7, 1, 7, 2] 0 8 [(7, 1), (7, 2)] rfl).1

/-- C6: The converse of the round-trip law fails: this byte sequence — a count
prefix of 2 followed by the same 5-byte key "bob" twice — is accepted by the
map decoder, but re-encoding the decoded one-entry map produces different
bytes. -/
theorem map_decode_encode_not_id :
    (getMapDecoder (getFixedBytesDecoder 5) getU8Decoder defaultMapSize).read
        [2, 0, 0, 0, 98, 111, 98, 0, 0, 1, 98, 111, 98, 0, 0, 2] 0
      = .ok ([([98, 111, 98], 2)], 16) ∧
    (getMapEncoder (getFixedBytesEncoder 5) getU8Encoder defaultMapSize).write
        [([98, 111, 98], 2)]
      = .ok [1, 0, 0, 0, 98, 111, 98, 0, 0, 2] ∧
    [1, 0, 0, 0, 98, 111, 98, 0, 0, 2]
      ≠ [2, 0, 0, 0, 98, 111, 98, 0, 0, 1, 98, 111, 98, 0, 0, 2] :=
  ⟨rfl, rfl, by decide⟩

/-- C10: Constructing a map codec with fixed count size 0 yields a fixed-size
codec of constant byte length 0 — for arbitrary (including variable-size) key
and value codecs — whose encoder maps the empty map to the empty byte
sequence and whose decoder consumes no bytes and returns the empty map at any
offset of any slice. -/
theorem map_fixed_count_zero {κ ν : Type} [DecidableEq κ]
    (key : Codec κ) (value : Codec ν) :
    ((getMapCodec key value (.fixedCount 0)).enc.fixedSize = some 0) ∧
    ((getMapCodec key value (.fixedCount 0)).dec.fixedSize = some 0) ∧
    ((getMapCodec key value (.fixedCount 0)).enc.write [] = .ok []) ∧
    (∀ bytes off, (getMapCodec key value (.fixedCount 0)).dec.read bytes off = .ok ([], off)) :=
  ⟨rfl, rfl, rfl, fun _ _ => rfl⟩

theorem writeAll_tuple_eq_specPairs {κ ν : Type} (keyE : Encoder κ) (valueE : Encoder ν) :
    ∀ es : List (κ × ν),
      writeAll (getTupleEncoder keyE valueE) es = specMapWritePairs keyE valueE es := by
  intro es
  induction es with
  | nil => rfl
  | cons p t ih =>
    obtain ⟨k, v⟩ := p
    simp only [writeAll, specMapWritePairs]
    rw [ih]
    cases hk : keyE.write k with
    | error e => simp [getTupleEncoder, hk, Bind.bind, Except.bind]
    | ok a =>
      cases hv : valueE.write v with
      | error e => simp [getTupleEncoder, hk, hv, Bind.bind, Except.bind, pure, Except.pure]
      | ok c =>
        cases hs : specMapWritePairs keyE valueE t with
        | error e =>
          simp [getTupleEncoder, hk, hv, hs, Bind.bind, Except.bind, pure, Except.pure]
        | ok r =>
          simp [getTupleEncoder, hk, hv, hs, Bind.bind, Except.bind, pure, Except.pure,
            List.append_assoc]

theorem readElems_tuple_eq_specPairs {κ ν : Type} (keyD : Decoder κ) (valueD : Decoder ν) :
    ∀ (n : Nat) (bytes : Bytes) (off : Nat),
      readElems (getTupleDecoder keyD valueD) n bytes off
        = specReadPairs keyD valueD n bytes off := by
  intro n
  induction n with
  | zero => intro bytes off; rfl
  | succ n ih =>
    intro bytes off
    simp only [readElems, specReadPairs, ih]
    cases hk : keyD.read bytes off with
    | error e => simp [getTupleDecoder, hk, Bind.bind, Except.bind]
    | ok a =>
      obtain ⟨k, o1⟩ := a
      cases hv : valueD.read bytes o1 with
      | error e => simp [getTupleDecoder, hk, hv, Bind.bind, Except.bind, pure, Except.pure]
      | ok c =>
        obtain ⟨v, o2⟩ := c
        cases hs : specReadPairs keyD valueD n bytes o2 with
        | error e =>
          simp [getTupleDecoder, hk, hv, hs, Bind.bind, Except.bind, pure, Except.pure]
        | ok r =>
          simp [getTupleDecoder, hk, hv, hs, Bind.bind, Except.bind, pure, Except.pure]

/-- C4: The map codec is not a new wire-level primitive: for every key codec,
value codec, and count-strategy configuration, the map encoder's bytes are
exactly the pair-array encoder's bytes on the map's entry list — equivalently
the spec's direct count-framed pair-after-pair serialization — and the map
decoder is exactly the pair-array decoder (whose element loop is the spec's
direct pair-after-pair read) followed by the pure entry-list-to-map
transform. -/
theorem map_codec_is_array_of_pairs {κ ν : Type} [DecidableEq κ]
    (keyE : Encoder κ) (valueE : Encoder ν) (keyD : Decoder κ) (valueD : Decoder ν)
    (cfg : ArrayLikeCodecSize) :
    (∀ m : JsMap κ ν, (getMapEncoder keyE valueE cfg).write m
        = (getArrayEncoder (getTupleEncoder keyE valueE) cfg).write (jsMapEntries m)) ∧
    (∀ m : JsMap κ ν, (getMapEncoder keyE valueE cfg).write m = specMapWrite keyE valueE cfg m) ∧
    (∀ bytes off, (getMapDecoder keyD valueD cfg).read bytes off
        = ((getArrayDecoder (getTupleDecoder keyD valueD) cfg).read bytes off).map
            (fun r => (jsMapFromEntries r.1, r.2))) ∧
    (∀ (n : Nat) (bytes : Bytes) (off : Nat),
      readElems (getTupleDecoder keyD valueD) n bytes off
        = specReadPairs keyD valueD n bytes off) := by
  refine ⟨fun m => rfl, fun m => ?_, fun bytes off => rfl, readElems_tuple_eq_specPairs keyD valueD⟩
  cases cfg <;>
    simp only [getMapEncoder, transformEncoder, getArrayEncoder, specMapWrite, jsMapEntries,
      writeAll_tuple_eq_specPairs]

theorem writeAll_flatten {α : Type} (e : Encoder α) :
    ∀ (xs : List α) (b : Bytes), writeAll e xs = .ok b →
      ∃ bs : List Bytes, b = bs.flatten ∧ bs.length = xs.length ∧
        ∀ (i : Nat) (hi : i < xs.length) (hbi : i < bs.length),
          e.write (xs.get ⟨i, hi⟩) = .ok (bs.get ⟨i, hbi⟩) := by
  intro xs
  induction xs with
  | nil =>
    intro b hw
    simp only [writeAll, pure, Except.pure, Except.ok.injEq] at hw
    subst hw
    exact ⟨[], rfl, rfl, fun i hi => absurd hi (by simp)⟩
  | cons x t ih =>
    intro b hw
    simp only [writeAll] at hw
    rw [except_bind_ok] at hw
    obtain ⟨a, ha, hw⟩ := hw
    rw [except_bind_ok] at hw
    obtain ⟨r, hr, hw⟩ := hw
    simp only [pure, Except.pure, Except.ok.injEq] at hw
    subst hw
    obtain ⟨bs, hflat, hlen, hget⟩ := ih r hr
    refine ⟨a :: bs, by simp [hflat], by simp [hlen], ?_⟩
    intro i hi hbi
    cases i with
    | zero => simpa using ha
    | succ j =>
      have hj : j < t.length := by simpa using hi
      have hbj : j < bs.length := by simpa using hbi
      simpa using hget j hj hbj

/-- C5: For every map value, the map encoder writes its entries in the
iteration order of the association: the produced bytes are an optional count
prefix (present exactly for the count-codec strategy, encoding the entry
count) followed by the concatenation of per-entry byte blocks, where the i-th
block is the encoding of the i-th entry of the map — never sorted or
reordered. -/
theorem map_encode_iteration_order {κ ν : Type} (keyE : Encoder κ) (valueE : Encoder ν)
    (cfg : ArrayLikeCodecSize) (m : JsMap κ ν) (b : Bytes)
    (henc : (getMapEncoder keyE valueE cfg).write m = .ok b) :
    ∃ (pre : Bytes) (bs : List Bytes), b = pre ++ bs.flatten ∧ bs.length = m.length ∧
      (∀ (i : Nat) (hi : i < m.length) (hbi : i < bs.length),
        (getTupleEncoder keyE valueE).write (m.get ⟨i, hi⟩) = .ok (bs.get ⟨i, hbi⟩)) ∧
      (match cfg with
        | .countCodec p => p.write m.length = .ok pre
        | _ => pre = []) := by
  cases cfg with
  | countCodec p =>
    simp only [getMapEncoder, transformEncoder, getArrayEncoder, jsMapEntries] at henc
    rw [except_bind_ok] at henc
    obtain ⟨pb, hpb, henc⟩ := henc
    rw [except_bind_ok] at henc
    obtain ⟨body, hbody, henc⟩ := henc
    simp only [pure, Except.pure, Except.ok.injEq] at henc
    subst henc
    obtain ⟨bs, hflat, hlen, hget⟩ := writeAll_flatten _ m body hbody
    exact ⟨pb, bs, by rw [hflat], hlen, hget, hpb⟩
  | fixedCount n =>
    simp only [getMapEncoder, transformEncoder, getArrayEncoder, jsMapEntries] at henc
    split at henc
    case isTrue hlen =>
      obtain ⟨bs, hflat, hbslen, hget⟩ := writeAll_flatten _ m b henc
      exact ⟨[], bs, by rw [hflat]; rfl, hbslen, hget, rfl⟩
    case isFalse hlen => cases henc
  | remainder =>
    simp only [getMapEncoder, transformEncoder, getArrayEncoder, jsMapEntries] at henc
    obtain ⟨bs, hflat, hbslen, hget⟩ := writeAll_flatten _ m b henc
    exact ⟨[], bs, by rw [hflat]; rfl, hbslen, hget, rfl⟩

/-- Witness for C5: the entry-order decomposition at a concrete encoding of
the two-entry map {1: 2, 3: 4}. -/
theorem map_encode_iteration_order_witness :
    ∃ (pre : Bytes) (bs : List Bytes),
      ([2, 0, 0, 0, 1, 2, 3, 4] : Bytes) = pre ++ bs.flatten ∧
      bs.length = ([(1, 2), (3, 4)] : JsMap Nat Nat).length ∧
      (∀ (i : Nat) (hi : i < ([(1, 2), (3, 4)] : JsMap Nat Nat).length) (hbi : i < bs.length),
        (getTupleEncoder getU8Encoder getU8Encoder).write
            (([(1, 2), (3, 4)] : JsMap Nat Nat).get ⟨i, hi⟩) = .ok (bs.get ⟨i, hbi⟩)) ∧
      (match defaultMapSize with
        | .countCodec p => p.write ([(1, 2), (3, 4)] : JsMap Nat Nat).length = .ok pre
        | _ => pre = []) :=
  map_encode_iteration_order getU8Encoder getU8Encoder defaultMapSize
    [(1, 2), (3, 4)] [2, 0, 0, 0, 1, 2, 3, 4] rfl

/-- C7 counterexample: a map codec built with a variable-size key encoder (a
u32-size-prefixed byte-sequence encoder, size category `none`) and a fixed
count of 0 is nonetheless fixed-size of constant length 0 — exactly as the
`size: 0` overloads of `map.ts` (lines 72–76, 127–131, 244–253) declare —
refuting that a map codec is fixed-size only when its key and value codecs
are fixed-size. -/
theorem map_fixedSize_zero_counterexample :
    (getMapEncoder getU32PrefixedBytesEncoder getU8Encoder (.fixedCount 0)).fixedSize = some 0 ∧
    getU32PrefixedBytesEncoder.fixedSize = none :=
  ⟨rfl, rfl⟩

/-- C7 amended: the map combinator's size category is exactly that of the
pair-array combinator it wraps, and a map codec is fixed-size if and only if
it uses the fixed-count strategy and either the count is 0 or both the key
and the value codecs are fixed-size; with a count prefix or a remainder
strategy, or a positive fixed count with any variable-size key or value
codec, it is variable-size. -/
theorem map_fixedSize_characterization {κ ν : Type} [DecidableEq κ]
    (keyE : Encoder κ) (valueE : Encoder ν) (keyD : Decoder κ) (valueD : Decoder ν)
    (cfg : ArrayLikeCodecSize) :
    ((getMapEncoder keyE valueE cfg).fixedSize
        = (getArrayEncoder (getTupleEncoder keyE valueE) cfg).fixedSize) ∧
    ((getMapDecoder keyD valueD cfg).fixedSize
        = (getArrayDecoder (getTupleDecoder keyD valueD) cfg).fixedSize) ∧
    ((getMapEncoder keyE valueE cfg).fixedSize.isSome ↔
      (cfg = .fixedCount 0 ∨
        ∃ n sk sv, cfg = .fixedCount n ∧
          keyE.fixedSize = some sk ∧ valueE.fixedSize = some sv)) := by
  refine ⟨rfl, rfl, ?_⟩
  cases cfg with
  | countCodec p =>
    simp only [getMapEncoder, transformEncoder, getArrayEncoder, arrayLikeFixedSize]
    simp
  | fixedCount n =>
    simp only [getMapEncoder, transformEncoder, getArrayEncoder, arrayLikeFixedSize]
    by_cases hn : n = 0
    · subst hn
      simp
    · rw [if_neg hn]
      cases hke : keyE.fixedSize with
      | none =>
        simp only [getTupleEncoder, hke]
        cases hve : valueE.fixedSize <;> simp [hn]
      | some sk =>
        cases hve : valueE.fixedSize with
        | none =>
          simp only [getTupleEncoder, hke, hve]
          simp [hn]
        | some sv =>
          simp only [getTupleEncoder, hke, hve]
          exact iff_of_true (by simp) (Or.inr ⟨n, sk, sv, rfl, rfl, rfl⟩)
  | remainder =>
    simp only [getMapEncoder, transformEncoder, getArrayEncoder, arrayLikeFixedSize]
    simp

theorem tuple_reads_total {κ ν : Type} {keyD : Decoder κ} {valueD : Decoder ν} {sk sv : Nat}
    (hkt : DecReadsTotal keyD sk) (hvt : DecReadsTotal valueD sv) :
    DecReadsTotal (getTupleDecoder keyD valueD) (sk + sv) := by
  intro bytes off h
  obtain ⟨k, hk⟩ := hkt bytes off (by omega)
  obtain ⟨v, hv⟩ := hvt bytes (off + sk) (by omega)
  refine ⟨(k, v), ?_⟩
  simp [getTupleDecoder, hk, hv, Bind.bind, Except.bind, pure, Except.pure, Nat.add_assoc]

theorem readElems_total {α : Type} (d : Decoder α) (s : Nat) (hd : DecReadsTotal d s) :
    ∀ (k : Nat) (bytes : Bytes) (off : Nat), off + k * s ≤ bytes.length →
      ∃ es, readElems d k bytes off = .ok (es, off + k * s) ∧ es.length = k := by
  intro k
  induction k with
  | zero =>
    intro bytes off h
    exact ⟨[], by simp [readElems, pure, Except.pure], rfl⟩
  | succ k ih =>
    intro bytes off h
    have hmul : (k + 1) * s = k * s + s := Nat.succ_mul k s
    obtain ⟨x, hx⟩ := hd bytes off (by omega)
    obtain ⟨es, hes, hlen⟩ := ih bytes (off + s) (by omega)
    refine ⟨x :: es, ?_, by simp [hlen]⟩
    have harith : off + s + k * s = off + (k + 1) * s := by omega
    simp [readElems, hx, hes, Bind.bind, Except.bind, pure, Except.pure, harith]

/-- C8: For every remainder-strategy map (and its underlying pair-array)
decoder whose key and value decoders are fixed-size of sizes `sk` and `sv`
with element size `s = sk + sv > 0` and conform to the fixed-size decode
contract: decoding a byte slice whose length is not an exact multiple of `s`
fails with `MisalignedRemainder`, and decoding a slice of length `k * s`
succeeds — the array decoder with exactly `k` decoded elements and the map
decoder with the map built from those `k` entries — consuming the whole
slice. -/
theorem map_remainder_exactness {κ ν : Type} [DecidableEq κ]
    (keyD : Decoder κ) (valueD : Decoder ν) (sk sv : Nat)
    (hkd : keyD.fixedSize = some sk) (hvd : valueD.fixedSize = some sv)
    (hpos : 0 < sk + sv) (hkt : DecReadsTotal keyD sk) (hvt : DecReadsTotal valueD sv)
    (bytes : Bytes) :
    (¬ (sk + sv) ∣ bytes.length →
      (getMapDecoder keyD valueD .remainder).read bytes 0 = .error .MisalignedRemainder ∧
      (getArrayDecoder (getTupleDecoder keyD valueD) .remainder).read bytes 0
        = .error .MisalignedRemainder) ∧
    (∀ k : Nat, bytes.length = k * (sk + sv) →
      ∃ es : List (κ × ν), es.length = k ∧
        (getArrayDecoder (getTupleDecoder keyD valueD) .remainder).read bytes 0
          = .ok (es, bytes.length) ∧
        (getMapDecoder keyD valueD .remainder).read bytes 0
          = .ok (jsMapFromEntries es, bytes.length)) := by
  have htupf := tupleDec_fixedSize_eq keyD valueD hkd hvd
  constructor
  · intro hndvd
    have hmod : bytes.length % (sk + sv) ≠ 0 := fun h =>
      hndvd (Nat.dvd_iff_mod_eq_zero.mpr h)
    have harr : (getArrayDecoder (getTupleDecoder keyD valueD) .remainder).read bytes 0
        = .error .MisalignedRemainder := by
      simp only [getArrayDecoder, resolveArrayLikeCount, htupf, Nat.sub_zero]
      rw [if_neg (by omega), if_neg hmod]
      rfl
    refine ⟨?_, harr⟩
    simp only [getMapDecoder, transformDecoder]
    rw [harr]
    rfl
  · intro k hklen
    obtain ⟨es, hread, heslen⟩ :=
      readElems_total (getTupleDecoder keyD valueD) (sk + sv)
        (tuple_reads_total hkt hvt) k bytes 0 (by omega)
    have harr : (getArrayDecoder (getTupleDecoder keyD valueD) .remainder).read bytes 0
        = .ok (es, bytes.length) := by
      simp only [getArrayDecoder, resolveArrayLikeCount, htupf, Nat.sub_zero]
      rw [if_neg (by omega), if_pos (by rw [hklen]; exact Nat.mul_mod_left k (sk + sv))]
      rw [except_bind_ok]
      refine ⟨(k, 0), ?_, ?_⟩
      · rw [hklen, Nat.mul_div_cancel _ hpos]
        rfl
      · rw [hread]
        simp [hklen]
    refine ⟨es, heslen, harr, ?_⟩
    simp only [getMapDecoder, transformDecoder]
    rw [harr]
    rfl

/-- Witness for C8: with u8 keys and u8 values (element size 2), the 3-byte
slice is misaligned and rejected, while the 4-byte slice decodes to exactly
2 entries. -/
theorem map_remainder_exactness_witness :
    (getMapDecoder getU8Decoder getU8Decoder .remainder).read [1, 2, 3] 0
        = .error .MisalignedRemainder ∧
    (getMapDecoder getU8Decoder getU8Decoder .remainder).read [1, 2, 3, 4] 0
        = .ok ([(1, 2), (3, 4)], 4) := by
  constructor
  · exact ((map_remainder_exactness getU8Decoder getU8Decoder 1 1 rfl rfl (by decide)
      u8_reads_total u8_reads_total [1, 2, 3]).1 (by decide)).1
  · exact rfl

end SolanaCodecs
